import Mathlib

/-!
# libpriqueue: a comparator-ordered singly linked queue

Shallow embedding of `src/Lab7/scheduler1/libpriqueue/libpriqueue.c`.

Modelling decisions.

* `void *` values are addresses, `Ptr := Nat`, with `NULL = 0`.
* A `Node` is one heap cell of the chain: `addr` is the address `malloc` gave the cell
  and `pointer` is its `pointer` field.  The `next` field is the list structure itself: the chain
  `q->root -> ... -> 0` is the list `root`, head first, so the `next` of a cell is the tail that
  follows it and the terminal link `0` is `[]`.
* `int` is `Int` (unbounded): the development covers queues of fewer than `2^31 - 1` nodes, on
  which neither `q->size++` nor `value++` overflows.
* `malloc` is the extra argument `node` of `priqueue_offer`: the address it returns in that
  call (`0` when the allocation fails).
* A function that dereferences a null pointer has no defined result; the embedding returns
  `none` there.  Every function returns the queue next to its result, so that "the queue is
  unchanged" is a statement about the function.
* `free` has no effect on the values the functions compute and is not modelled.
-/

namespace PriQueue

/-- A `void *` value: an address, `0` being `NULL`. -/
abbrev Ptr := Nat

/-- The null pointer. -/
abbrev NULL : Ptr := 0

/-- One cell of the chain: its own address and the element reference it holds. -/
structure Node where
  addr : Ptr
  pointer : Ptr
deriving DecidableEq, Repr

/-- The queue record `priqueue_t`: the `size` field, the `comparer` field and the chain that starts
at the `root` field. -/
structure priqueue_t where
  size : Int
  comparer : Ptr → Ptr → Int
  root : List Node

/-- Source function `priqueue_init`: `size = 0`, `comparer` stored, `root = 0`. -/
def priqueue_init (comparer : Ptr → Ptr → Int) : priqueue_t :=
  { size := 0, comparer := comparer, root := [] }

/-- The `while` loop of `priqueue_offer`.  `before` is the part of the chain already passed (its
last cell is `parent`), the second list is the chain from `temp` on, `value` counts the cells
passed.  Result: the cells before the insertion point, the chain from `temp`, and `value`. -/
def offer_loop (comparer : Ptr → Ptr → Int) (ptr : Ptr) :
    List Node → List Node → Int → List Node × List Node × Int
  | before, [], value => (before, [], value)
  | before, temp :: next, value =>
    if comparer temp.pointer ptr < 0 then
      offer_loop comparer ptr (before ++ [temp]) next (value + 1)
    else
      (before, temp :: next, value)

/-- Source function `priqueue_offer`.  The argument `node` is the address returned by
`malloc(sizeof(Node))`; the source writes through it without a test, so a failed allocation
(`node = 0`) has no defined result. -/
def priqueue_offer (q : priqueue_t) (node : Ptr) (ptr : Ptr) : Option (Int × priqueue_t) :=
  if node = NULL then none
  else if q.size = 0 then
    some (0, { q with size := 1, root := [⟨node, ptr⟩] })
  else
    match offer_loop q.comparer ptr [] q.root 0 with
    | (before, temp, value) =>
      if value = 0 then
        some (0, { q with size := q.size + 1, root := ⟨node, ptr⟩ :: q.root })
      else
        some (value, { q with size := q.size + 1, root := before ++ ⟨node, ptr⟩ :: temp })

/-- Source function `priqueue_peek`: the element of the first cell when `size != 0`, else
`NULL`. -/
def priqueue_peek (q : priqueue_t) : Option (Ptr × priqueue_t) :=
  if q.size ≠ 0 then
    match q.root with
    | [] => none
    | root :: _ => some (root.pointer, q)
  else
    some (NULL, q)

/-- Source function `priqueue_poll`: `NULL` when `size == 0`; else the first cell is unlinked, its
element returned and `size` decremented. -/
def priqueue_poll (q : priqueue_t) : Option (Ptr × priqueue_t) :=
  if q.size = 0 then some (NULL, q)
  else
    match q.root with
    | [] => none
    | temp :: next => some (temp.pointer, { q with root := next, size := q.size - 1 })

/-- The `while (i <= index)` loop of `priqueue_at`: `temp = temp->next; i++`.  The list is the
chain from `temp`; following the link of a missing cell has no defined result. -/
def at_loop (index : Int) : List Node → Int → Option (List Node)
  | [], i => if i ≤ index then none else some []
  | temp :: next, i =>
    if i ≤ index then at_loop index next (i + 1) else some (temp :: next)

/-- Source function `priqueue_at`: `NULL` when `size <= index`; else the element of the cell the
walk ends on. -/
def priqueue_at (q : priqueue_t) (index : Int) : Option (Ptr × priqueue_t) :=
  if q.size ≤ index then some (NULL, q)
  else
    match at_loop index q.root 1 with
    | none => none
    | some [] => none
    | some (temp :: _) => some (temp.pointer, q)

/-- The `while (current != 0)` loop of `priqueue_remove`.  `before` is the chain up to and
including `parent`, the second list is the chain from `current`.  Result: the chain that
remains, `value`, and `q->size`. -/
def remove_loop (comparer : Ptr → Ptr → Int) (ptr : Ptr) :
    List Node → List Node → Int → Int → List Node × Int × Int
  | before, [], value, size => (before, value, size)
  | before, current :: temp, value, size =>
    if comparer current.pointer ptr = 0 then
      remove_loop comparer ptr before temp (value + 1) (size - 1)
    else
      remove_loop comparer ptr (before ++ [current]) temp value size

/-- The body of `priqueue_remove` on the fields `size` and `root`; the recursive call of the
source is the recursive call here.  Result: the returned number, `q->size` and the chain. -/
def remove_body (comparer : Ptr → Ptr → Int) (ptr : Ptr) :
    Int → List Node → Option (Int × Int × List Node)
  | size, [] => if size < 1 then some (0, size, []) else none
  | size, root :: next =>
    if size < 1 then some (0, size, root :: next)
    else if comparer ptr root.pointer = 0 then
      match remove_body comparer ptr (size - 1) next with
      | none => none
      | some (r, size', root') => some (r + 1, size', root')
    else
      match remove_loop comparer ptr [root] next 0 size with
      | (root', value, size') => some (value, size', root')

/-- Source function `priqueue_remove`. -/
def priqueue_remove (q : priqueue_t) (ptr : Ptr) : Option (Int × priqueue_t) :=
  match remove_body q.comparer ptr q.size q.root with
  | none => none
  | some (r, size', root') => some (r, { q with size := size', root := root' })

/-- The `while (index > 0)` loop of `priqueue_remove_at`: `parent = temp; temp = temp->next;
index--`.  `before` is the chain up to and including `parent`, the second list is the chain from
`temp`. -/
def remove_at_loop : List Node → List Node → Int → Option (List Node × List Node)
  | before, [], index => if index > 0 then none else some (before, [])
  | before, temp :: next, index =>
    if index > 0 then remove_at_loop (before ++ [temp]) next (index - 1)
    else some (before, temp :: next)

/-- Source function `priqueue_remove_at`.  The value returned on success is `temp`, the address
of the unlinked cell. -/
def priqueue_remove_at (q : priqueue_t) (index : Int) : Option (Ptr × priqueue_t) :=
  if index > q.size - 1 then some (NULL, q)
  else
    match q.root with
    | [] => none
    | root :: next =>
      if index = 0 then
        some (root.addr, { q with size := q.size - 1, root := next })
      else
        match remove_at_loop [root] next (index - 1) with
        | none => none
        | some (_, []) => none
        | some (before, temp :: next') =>
          some (temp.addr, { q with size := q.size - 1, root := before ++ next' })

/-- Source function `priqueue_size`. -/
def priqueue_size (q : priqueue_t) : Int := q.size

/-- Source function `priqueue_destroy`: `while (q->size > 0)` call `priqueue_remove_at(q, 0)`;
the returned cell is freed.  Each successful call lowers `q->size` by one, which bounds the
loop. -/
def priqueue_destroy (q : priqueue_t) : Option priqueue_t :=
  if _hsize : q.size > 0 then
    match _hcall : priqueue_remove_at q 0 with
    | none => none
    | some (_, q') => priqueue_destroy q'
  else
    some q
termination_by q.size.toNat
decreasing_by
  simp only [priqueue_remove_at] at _hcall
  split at _hcall
  · omega
  · split at _hcall
    · exact absurd _hcall (by simp)
    · simp only [if_true, Option.some.injEq, Prod.mk.injEq] at _hcall
      rw [← _hcall.2]
      simp only
      omega

/-! ## Specification vocabulary -/

/-- Invariant 1 of the data model: the `size` field is the number of cells of the chain. -/
def WellFormed (q : priqueue_t) : Prop := q.size = (q.root.length : Int)

instance (q : priqueue_t) : Decidable (WellFormed q) := by
  unfold WellFormed
  infer_instance

/-- The queues reachable from `priqueue_init` by insert and remove operations: every defined
result of `priqueue_offer`, `priqueue_poll`, `priqueue_remove` and `priqueue_remove_at`, with
arbitrary arguments, is reachable. -/
inductive Reachable : priqueue_t → Prop
  | init (comparer : Ptr → Ptr → Int) : Reachable (priqueue_init comparer)
  | offer {q q' : priqueue_t} (node ptr : Ptr) (p : Int) :
    Reachable q → priqueue_offer q node ptr = some (p, q') → Reachable q'
  | poll {q q' : priqueue_t} (r : Ptr) :
    Reachable q → priqueue_poll q = some (r, q') → Reachable q'
  | remove {q q' : priqueue_t} (ptr : Ptr) (r : Int) :
    Reachable q → priqueue_remove q ptr = some (r, q') → Reachable q'
  | remove_at {q q' : priqueue_t} (index : Int) (r : Ptr) :
    Reachable q → priqueue_remove_at q index = some (r, q') → Reachable q'

/-- Whether a call of `priqueue_at` returned a present value: it is defined and its result is
not the empty sentinel `NULL`. -/
def present : Option (Ptr × priqueue_t) → Bool
  | some (v, _) => decide (v ≠ NULL)
  | none => false

/-- The three-way contract of a comparator: swapping the arguments flips the sign, and "sorts
strictly earlier" is transitive. -/
structure ThreeWay (comparer : Ptr → Ptr → Int) : Prop where
  sign_swap : ∀ a b, Int.sign (comparer a b) = - Int.sign (comparer b a)
  lt_trans : ∀ a b c, comparer a b < 0 → comparer b c < 0 → comparer a c < 0

/-- Every pair of adjacent cells `A` (earlier), `B` (later) of a chain has
`comparer(A.pointer, B.pointer) <= 0`. -/
def Ordered (comparer : Ptr → Ptr → Int) (root : List Node) : Prop :=
  List.Chain' (fun A B : Node => comparer A.pointer B.pointer ≤ 0) root

/-- A finite sequence of `priqueue_offer` calls; each call is the pair of the address `malloc`
returns in it and the element offered. -/
def offer_all : priqueue_t → List (Ptr × Ptr) → Option priqueue_t
  | q, [] => some q
  | q, (node, ptr) :: calls =>
    match priqueue_offer q node ptr with
    | none => none
    | some (_, q') => offer_all q' calls

/-- Memory of the worked examples: the integers stored at the element addresses `101 .. 104`
(`5`, `3`, `8`, `3`). -/
def example_value : Ptr → Int
  | 101 => 5
  | 102 => 3
  | 103 => 8
  | 104 => 3
  | _ => 0

/-- The numeric ascending comparator of the worked examples: it compares the stored integers. -/
def numeric_comparer (a b : Ptr) : Int := example_value a - example_value b

/-- The calls of the worked example: insert `5`, `3`, `8`, `3` in that order. -/
def example_calls : List (Ptr × Ptr) := [(1001, 101), (1002, 102), (1003, 103), (1004, 104)]

/-- The queue the worked example builds: it holds `3`, `3`, `5`, `8` (elements `104`, `102`, `101`,
`103`) under the numeric comparator. -/
def example_queue_ties : priqueue_t :=
  { size := 4, comparer := numeric_comparer,
    root := [⟨1004, 104⟩, ⟨1002, 102⟩, ⟨1001, 101⟩, ⟨1003, 103⟩] }

/-- The queue holding `3`, `5`, `8` (elements `102`, `101`, `103`) under the numeric comparator. -/
def example_queue : priqueue_t :=
  { size := 3, comparer := numeric_comparer, root := [⟨1002, 102⟩, ⟨1001, 101⟩, ⟨1003, 103⟩] }

/-- The queue states reachable from `priqueue_init` by any finite sequence of calls of the seven
operations with arbitrary arguments: the queue left by every defined result of
`priqueue_offer`, `priqueue_peek`, `priqueue_poll`, `priqueue_at`, `priqueue_remove`,
`priqueue_remove_at` and `priqueue_destroy` is reachable. -/
inductive ReachableByCalls : priqueue_t → Prop
  | init (comparer : Ptr → Ptr → Int) : ReachableByCalls (priqueue_init comparer)
  | offer {q q' : priqueue_t} (node ptr : Ptr) (p : Int) :
    ReachableByCalls q → priqueue_offer q node ptr = some (p, q') → ReachableByCalls q'
  | peek {q q' : priqueue_t} (r : Ptr) :
    ReachableByCalls q → priqueue_peek q = some (r, q') → ReachableByCalls q'
  | poll {q q' : priqueue_t} (r : Ptr) :
    ReachableByCalls q → priqueue_poll q = some (r, q') → ReachableByCalls q'
  | at_index {q q' : priqueue_t} (index : Int) (r : Ptr) :
    ReachableByCalls q → priqueue_at q index = some (r, q') → ReachableByCalls q'
  | remove {q q' : priqueue_t} (ptr : Ptr) (r : Int) :
    ReachableByCalls q → priqueue_remove q ptr = some (r, q') → ReachableByCalls q'
  | remove_at {q q' : priqueue_t} (index : Int) (r : Ptr) :
    ReachableByCalls q → priqueue_remove_at q index = some (r, q') → ReachableByCalls q'
  | destroy {q q' : priqueue_t} :
    ReachableByCalls q → priqueue_destroy q = some q' → ReachableByCalls q'

/-- A comparator that is a total preorder: swapping the arguments flips the sign, and "sorts no
later" is transitive. -/
structure TotalPreorder (comparer : Ptr → Ptr → Int) : Prop where
  sign_swap : ∀ a b, Int.sign (comparer a b) = - Int.sign (comparer b a)
  le_trans : ∀ a b c, comparer a b ≤ 0 → comparer b c ≤ 0 → comparer a c ≤ 0

/-- The queue reached by offering the element `NULL` to a fresh queue: one cell, at `1001`, holding
`NULL`. -/
def example_queue_null : priqueue_t :=
  { size := 1, comparer := numeric_comparer, root := [⟨1001, NULL⟩] }

/-- The queue holding the single element `102` (value `3`). -/
def example_queue_one : priqueue_t :=
  { size := 1, comparer := numeric_comparer, root := [⟨1002, 102⟩] }

theorem offer_loop_eq (comparer : Ptr → Ptr → Int) (ptr : Ptr) (temp before : List Node)
    (value : Int) :
    offer_loop comparer ptr before temp value =
      (before ++ temp.takeWhile (fun x => decide (comparer x.pointer ptr < 0)),
       temp.dropWhile (fun x => decide (comparer x.pointer ptr < 0)),
       value + ((temp.takeWhile (fun x => decide (comparer x.pointer ptr < 0))).length : Int)) := by
  induction temp generalizing before value with
  | nil => simp [offer_loop]
  | cons t next ih =>
    by_cases h : comparer t.pointer ptr < 0
    · simp only [offer_loop, h, if_true, ih, List.takeWhile_cons, List.dropWhile_cons,
        decide_True, List.length_cons, List.append_assoc, List.singleton_append]
      simp only [Prod.mk.injEq, true_and]
      push_cast
      omega
    · simp [offer_loop, h]

/-- What `priqueue_offer` does on a queue whose `size` is the length of its chain: the new cell
goes right after the leading run of cells that compare `< 0` against the element, and the
returned position is the length of that run. -/
theorem priqueue_offer_eq (q : priqueue_t) (node ptr : Ptr) (hw : WellFormed q)
    (hn : node ≠ NULL) :
    priqueue_offer q node ptr =
      some (((q.root.takeWhile (fun x => decide (q.comparer x.pointer ptr < 0))).length : Int),
        { q with
          size := q.size + 1
          root := q.root.takeWhile (fun x => decide (q.comparer x.pointer ptr < 0)) ++
            ⟨node, ptr⟩ :: q.root.dropWhile (fun x => decide (q.comparer x.pointer ptr < 0)) }) := by
  unfold WellFormed at hw
  unfold priqueue_offer
  rw [if_neg hn]
  by_cases h0 : q.size = 0
  · have hr : q.root = [] := by
      rw [h0] at hw
      exact List.length_eq_zero.mp (by exact_mod_cast hw.symm)
    simp [h0, hr]
  · rw [if_neg h0, offer_loop_eq]
    simp only [List.nil_append, zero_add]
    by_cases hv : ((q.root.takeWhile
        (fun x => decide (q.comparer x.pointer ptr < 0))).length : Int) = 0
    · have hnil : q.root.takeWhile (fun x => decide (q.comparer x.pointer ptr < 0)) = [] :=
        List.length_eq_zero.mp (by exact_mod_cast hv)
      have hd : q.root.dropWhile (fun x => decide (q.comparer x.pointer ptr < 0)) = q.root := by
        have := List.takeWhile_append_dropWhile
          (fun x => decide (q.comparer x.pointer ptr < 0)) q.root
        rw [hnil] at this
        simpa using this
      simp [hnil, hd]
    · rw [if_neg hv]

theorem offer_all_append (q : priqueue_t) (calls more : List (Ptr × Ptr)) :
    offer_all q (calls ++ more) =
      match offer_all q calls with
      | none => none
      | some q' => offer_all q' more := by
  induction calls generalizing q with
  | nil => simp [offer_all]
  | cons c calls ih =>
    obtain ⟨node, ptr⟩ := c
    simp only [List.cons_append, offer_all]
    cases priqueue_offer q node ptr with
    | none => rfl
    | some r => exact ih r.2

theorem int_nonpos_of_swap {comparer : Ptr → Ptr → Int} (hc : ThreeWay comparer) {a b : Ptr}
    (h : ¬ comparer a b < 0) : comparer b a ≤ 0 := by
  have hs := hc.sign_swap b a
  have h1 : 0 ≤ Int.sign (comparer a b) := Int.sign_nonneg.mpr (not_lt.mp h)
  by_contra hpos
  have h2 := Int.sign_eq_one_of_pos (not_le.mp hpos)
  omega

/-- Insertion after the leading run of strictly earlier cells keeps an ordered chain ordered. -/
theorem ordered_insert {comparer : Ptr → Ptr → Int} (hc : ThreeWay comparer) (root : List Node)
    (node ptr : Ptr) (ho : Ordered comparer root) :
    Ordered comparer (root.takeWhile (fun x => decide (comparer x.pointer ptr < 0)) ++
      ⟨node, ptr⟩ :: root.dropWhile (fun x => decide (comparer x.pointer ptr < 0))) := by
  unfold Ordered at *
  rw [List.chain'_split]
  constructor
  · rw [List.chain'_append]
    have hpre : List.Chain' (fun A B : Node => comparer A.pointer B.pointer ≤ 0)
        (root.takeWhile (fun x => decide (comparer x.pointer ptr < 0))) :=
      List.Chain'.prefix ho ( List.takeWhile_prefix _)
    refine ⟨hpre, List.chain'_singleton _, ?_⟩
    intro x hx y hy
    have hxm : x ∈ root.takeWhile (fun x => decide (comparer x.pointer ptr < 0)) :=
      List.mem_of_mem_getLast? hx
    have hlt := List.mem_takeWhile_imp hxm
    simp only [List.head?_cons, Option.mem_def, Option.some.injEq] at hy
    subst hy
    simp only [decide_eq_true_eq] at hlt
    exact le_of_lt hlt
  · rw [List.chain'_cons']
    refine ⟨?_, ho.suffix (List.dropWhile_suffix _)⟩
    intro y hy
    have hnot := List.head?_dropWhile_not (fun x => decide (comparer x.pointer ptr < 0)) root
    rw [Option.mem_def] at hy
    rw [hy] at hnot
    simp only [decide_eq_false_iff_not] at hnot
    exact int_nonpos_of_swap hc hnot

theorem offer_all_ordered {comparer : Ptr → Ptr → Int} (hc : ThreeWay comparer)
    (calls : List (Ptr × Ptr)) (hm : ∀ c ∈ calls, c.1 ≠ NULL) (q : priqueue_t)
    (hq : q.comparer = comparer) (hw : WellFormed q) (ho : Ordered comparer q.root) :
    ∃ q', offer_all q calls = some q' ∧ q'.comparer = comparer ∧ WellFormed q' ∧
      Ordered comparer q'.root := by
  induction calls generalizing q with
  | nil => exact ⟨q, rfl, hq, hw, ho⟩
  | cons c calls ih =>
    obtain ⟨node, ptr⟩ := c
    have hn : node ≠ NULL := hm (node, ptr) (List.mem_cons_self _ _)
    simp only [offer_all, priqueue_offer_eq q node ptr hw hn]
    apply ih (fun c hcm => hm c (List.mem_cons_of_mem _ hcm))
    · exact hq
    · unfold WellFormed at *
      have hlen := congrArg List.length (List.takeWhile_append_dropWhile
        (fun x => decide (q.comparer x.pointer ptr < 0)) q.root)
      simp only [List.length_append, List.length_cons] at hlen ⊢
      omega
    · simp only [hq]
      exact ordered_insert hc q.root node ptr ho

/-! ## C1 -/

/-- C1. For every comparator honouring the three-way contract and every finite sequence of
`priqueue_offer` calls on a freshly initialised queue (every allocation succeeding), after each
call, that is after the first `k` calls for every `k`, the queue is defined and every pair of
adjacent cells `A` (earlier), `B` (later) satisfies `comparer(A.pointer, B.pointer) <= 0`. -/
theorem offer_keeps_order (comparer : Ptr → Ptr → Int) (hc : ThreeWay comparer)
    (calls : List (Ptr × Ptr)) (hm : ∀ c ∈ calls, c.1 ≠ NULL) (k : Nat) :
    ∃ q, offer_all (priqueue_init comparer) (calls.take k) = some q ∧
      List.Chain' (fun A B : Node => comparer A.pointer B.pointer ≤ 0) q.root := by
  obtain ⟨q, h1, _, _, h4⟩ := offer_all_ordered hc (calls.take k)
    (fun c hcm => hm c (List.mem_of_mem_take hcm)) (priqueue_init comparer) rfl
    (by simp [WellFormed, priqueue_init]) (by simp [Ordered, priqueue_init])
  exact ⟨q, h1, h4⟩

theorem threeWay_numeric : ThreeWay numeric_comparer := by
  constructor
  · intro a b
    unfold numeric_comparer
    rw [← Int.sign_neg]
    congr 1
    ring
  · intro a b c
    unfold numeric_comparer
    omega

/-- Witness of C1: the numeric comparator, the calls inserting `5`, `3`, `8`, `3`, all four
calls done. -/
theorem offer_keeps_order_witness :
    ThreeWay numeric_comparer ∧ (∀ c ∈ example_calls, c.1 ≠ NULL) ∧
      ∃ q, offer_all (priqueue_init numeric_comparer) (example_calls.take 4) = some q ∧
        List.Chain' (fun A B : Node => numeric_comparer A.pointer B.pointer ≤ 0) q.root :=
  ⟨threeWay_numeric, by decide,
    offer_keeps_order numeric_comparer threeWay_numeric example_calls (by decide) 4⟩

/-! ## C2 -/

/-- A run of `priqueue_offer` calls on a fresh queue is defined, keeps `size` equal to the
length of the chain, keeps the comparator, and leaves a cell for every call in the chain. -/
theorem offer_all_init (comparer : Ptr → Ptr → Int) (calls : List (Ptr × Ptr))
    (hm : ∀ c ∈ calls, c.1 ≠ NULL) :
    ∃ q, offer_all (priqueue_init comparer) calls = some q ∧ q.comparer = comparer ∧
      WellFormed q ∧ (∀ c ∈ calls, (⟨c.1, c.2⟩ : Node) ∈ q.root) ∧
      calls.Pairwise (fun c d => comparer c.2 d.2 = 0 →
        List.Sublist [(⟨d.1, d.2⟩ : Node), ⟨c.1, c.2⟩] q.root) := by
  induction calls using List.reverseRecOn with
  | nil =>
    exact ⟨priqueue_init comparer, rfl, rfl, by simp [WellFormed, priqueue_init], by simp,
      List.Pairwise.nil⟩
  | append_singleton cs d ih =>
    obtain ⟨q, hrun, hq, hw, hmem, hpw⟩ := ih (fun c hcm => hm c (List.mem_append_left _ hcm))
    obtain ⟨node, ptr⟩ := d
    have hn : node ≠ NULL := hm (node, ptr) (by simp)
    have hsplit := List.takeWhile_append_dropWhile
      (fun x => decide (comparer x.pointer ptr < 0)) q.root
    have hsub : List.Sublist q.root
        (q.root.takeWhile (fun x => decide (comparer x.pointer ptr < 0)) ++
          ⟨node, ptr⟩ :: q.root.dropWhile (fun x => decide (comparer x.pointer ptr < 0))) := by
      conv_lhs => rw [← hsplit]
      exact List.Sublist.append (List.Sublist.refl _) (List.sublist_cons_self _ _)
    refine ⟨{ q with
        size := q.size + 1
        root := q.root.takeWhile (fun x => decide (q.comparer x.pointer ptr < 0)) ++
          ⟨node, ptr⟩ :: q.root.dropWhile (fun x => decide (q.comparer x.pointer ptr < 0)) },
      ?_, ?_, ?_, ?_, ?_⟩
    · rw [offer_all_append, hrun]
      simp only [offer_all, priqueue_offer_eq q node ptr hw hn]
    · exact hq
    · unfold WellFormed at *
      have hlen := congrArg List.length hsplit
      simp only [hq, List.length_append, List.length_cons] at hlen ⊢
      omega
    · intro c hcm
      rcases List.mem_append.mp hcm with h | h
      · simp only [hq]
        exact hsub.subset (hmem c h)
      · simp only [List.mem_singleton] at h
        subst h
        simp
    · rw [List.pairwise_append]
      refine ⟨hpw.imp ?_, List.pairwise_singleton _ _, ?_⟩
      · intro c d hcd h0
        simp only [hq]
        exact (hcd h0).trans hsub
      · intro c hcm d hd h0
        simp only [List.mem_singleton] at hd
        subst hd
        simp only [hq]
        have hc_in : (⟨c.1, c.2⟩ : Node) ∈
            q.root.takeWhile (fun x => decide (comparer x.pointer ptr < 0)) ++
              q.root.dropWhile (fun x => decide (comparer x.pointer ptr < 0)) := by
          rw [hsplit]
          exact hmem c hcm
        rcases List.mem_append.mp hc_in with h | h
        · have hlt := List.mem_takeWhile_imp h
          simp only [decide_eq_true_eq] at hlt
          simp only at h0
          omega
        · exact List.sublist_append_of_sublist_right
            (List.Sublist.cons₂ _ (List.singleton_sublist.mpr h))

/-- C2, the claim as stated fails.  Inserting `5`, `3`, `8`, `3` (elements `101 .. 104`) with the
numeric comparator gives the chain `104, 102, 101, 103`: the two `3`s are comparator-equal and
the second-inserted one (`104`) precedes the first-inserted one (`102`), so the order among the
ties is not the insertion order. -/
theorem offer_ties_not_fifo :
    (offer_all (priqueue_init numeric_comparer) example_calls).map
        (fun q => q.root.map Node.pointer) = some [104, 102, 101, 103] ∧
      numeric_comparer 102 104 = 0 ∧
      ¬ (offer_all (priqueue_init numeric_comparer) example_calls).map
        (fun q => q.root.map Node.pointer) = some [102, 104, 101, 103] := by
  decide

/-- C2 as amended.  On every queue built only by `priqueue_offer` calls, a new element `e` is
placed directly after the leading run of elements `x` with `comparer(x, e) < 0`, hence before
every element already present that is comparator-equal to `e`; so among comparator-equal
elements the head-to-tail order is the reverse of the insertion order (the cell of the later
call precedes the cell of the earlier call).  Inserting `5`, `3`, `8`, `3` with the numeric
comparator gives the values `[3, 3, 5, 8]` with the second-inserted `3` first. -/
theorem offer_before_ties (comparer : Ptr → Ptr → Int) (calls : List (Ptr × Ptr))
    (hm : ∀ c ∈ calls, c.1 ≠ NULL) :
    ∃ q, offer_all (priqueue_init comparer) calls = some q ∧
      (∀ node e, node ≠ NULL → ∃ pre post, q.root = pre ++ post ∧
        (priqueue_offer q node e).map (fun r => (r.1, r.2.root)) =
          some ((pre.length : Int), pre ++ ⟨node, e⟩ :: post) ∧
        (∀ x ∈ pre, comparer x.pointer e < 0) ∧
        (∀ y ∈ post.head?, ¬ comparer y.pointer e < 0) ∧
        (∀ x ∈ q.root, comparer x.pointer e = 0 → x ∈ post)) ∧
      calls.Pairwise (fun c d => comparer c.2 d.2 = 0 →
        List.Sublist [(⟨d.1, d.2⟩ : Node), ⟨c.1, c.2⟩] q.root) ∧
      (offer_all (priqueue_init numeric_comparer) example_calls).map
        (fun q => q.root.map (fun x => (x.pointer, example_value x.pointer))) =
          some [(104, 3), (102, 3), (101, 5), (103, 8)] := by
  obtain ⟨q, hrun, hq, hw, _, hpw⟩ := offer_all_init comparer calls hm
  refine ⟨q, hrun, ?_, hpw, by decide⟩
  intro node e hn
  have hsplit := List.takeWhile_append_dropWhile
    (fun x => decide (comparer x.pointer e < 0)) q.root
  refine ⟨q.root.takeWhile (fun x => decide (comparer x.pointer e < 0)),
    q.root.dropWhile (fun x => decide (comparer x.pointer e < 0)), hsplit.symm, ?_, ?_, ?_, ?_⟩
  · simp [priqueue_offer_eq q node e hw hn, hq]
  · intro x hx
    simpa using List.mem_takeWhile_imp hx
  · intro y hy
    have hnot := List.head?_dropWhile_not (fun x => decide (comparer x.pointer e < 0)) q.root
    rw [Option.mem_def] at hy
    rw [hy] at hnot
    simpa using hnot
  · intro x hx h0
    rw [← hsplit] at hx
    rcases List.mem_append.mp hx with h | h
    · have hlt := List.mem_takeWhile_imp h
      simp only [decide_eq_true_eq] at hlt
      omega
    · exact h

/-- Witness of the amended C2: the numeric comparator and the calls inserting `5`, `3`, `8`,
`3`. -/
theorem offer_before_ties_witness :
    (∀ c ∈ example_calls, c.1 ≠ NULL) ∧
    ∃ q, offer_all (priqueue_init numeric_comparer) example_calls = some q ∧
      (∀ node e, node ≠ NULL → ∃ pre post, q.root = pre ++ post ∧
        (priqueue_offer q node e).map (fun r => (r.1, r.2.root)) =
          some ((pre.length : Int), pre ++ ⟨node, e⟩ :: post) ∧
        (∀ x ∈ pre, numeric_comparer x.pointer e < 0) ∧
        (∀ y ∈ post.head?, ¬ numeric_comparer y.pointer e < 0) ∧
        (∀ x ∈ q.root, numeric_comparer x.pointer e = 0 → x ∈ post)) ∧
      example_calls.Pairwise (fun c d => numeric_comparer c.2 d.2 = 0 →
        List.Sublist [(⟨d.1, d.2⟩ : Node), ⟨c.1, c.2⟩] q.root) ∧
      (offer_all (priqueue_init numeric_comparer) example_calls).map
        (fun q => q.root.map (fun x => (x.pointer, example_value x.pointer))) =
          some [(104, 3), (102, 3), (101, 5), (103, 8)] :=
  ⟨by decide, offer_before_ties numeric_comparer example_calls (by decide)⟩

/-! ## Positional access -/

/-- The walk of `priqueue_at`: started at `i` it follows `index + 1 - i` links, when the chain
has that many cells. -/
theorem at_loop_eq_drop (index : Int) (temp : List Node) (i : Int) (hi : i ≤ index + 1)
    (hlen : (index + 1 - i).toNat ≤ temp.length) :
    at_loop index temp i = some (temp.drop (index + 1 - i).toNat) := by
  induction temp generalizing i with
  | nil =>
    simp only [List.length_nil, Nat.le_zero, Int.toNat_eq_zero] at hlen
    have : ¬ i ≤ index := by omega
    simp [at_loop, this]
  | cons t next ih =>
    by_cases h : i ≤ index
    · simp only [at_loop, h, if_true]
      have hstep : (index + 1 - i).toNat = (index + 1 - (i + 1)).toNat + 1 := by omega
      rw [ih (i + 1) (by omega) (by simp only [List.length_cons] at hlen; omega), hstep,
        List.drop_succ_cons]
    · have h0 : (index + 1 - i).toNat = 0 := by omega
      simp [at_loop, h, h0]

/-- On a queue whose `size` is the length of its chain, `priqueue_at` at a position inside the
chain returns the element of the cell at that position and the queue itself. -/
theorem priqueue_at_eq (q : priqueue_t) (hw : WellFormed q) (n : Nat) (hn : n < q.root.length) :
    priqueue_at q (n : Int) = some ((q.root.get ⟨n, hn⟩).pointer, q) := by
  unfold WellFormed at hw
  unfold priqueue_at
  have h1 : ¬ q.size ≤ (n : Int) := by omega
  rw [if_neg h1, at_loop_eq_drop (n : Int) q.root 1 (by omega) (by omega)]
  have h2 : ((n : Int) + 1 - 1).toNat = n := by omega
  rw [h2, List.drop_eq_getElem_cons hn]
  rfl

/-! ## C3 -/

/-- C3. On every initialised queue (its `size` is the length of its chain) and for every element
`e`, `priqueue_offer` (its allocation succeeding) returns a position `p` with
`0 <= p <= old size`; right after the call `priqueue_at` at `p` returns `e` and leaves the queue
as it is, and `priqueue_size` is the old size plus one.  When the chain starts with cells `a`, `b`
and `e` ranks strictly between them under a comparator honouring the three-way contract, the
returned position is `1`. -/
theorem offer_position (q : priqueue_t) (node e : Ptr) (hw : WellFormed q) (hn : node ≠ NULL) :
    ∃ p q', priqueue_offer q node e = some (p, q') ∧ 0 ≤ p ∧ p ≤ priqueue_size q ∧
      priqueue_at q' p = some (e, q') ∧ priqueue_size q' = priqueue_size q + 1 ∧
      (∀ a b rest, q.root = a :: b :: rest → ThreeWay q.comparer →
        q.comparer a.pointer e < 0 → q.comparer e b.pointer < 0 → p = 1) := by
  have hsplit := List.takeWhile_append_dropWhile
    (fun x => decide (q.comparer x.pointer e < 0)) q.root
  have hlen := congrArg List.length hsplit
  simp only [List.length_append] at hlen
  have hw' : WellFormed { q with
      size := q.size + 1
      root := q.root.takeWhile (fun x => decide (q.comparer x.pointer e < 0)) ++
        ⟨node, e⟩ :: q.root.dropWhile (fun x => decide (q.comparer x.pointer e < 0)) } := by
    unfold WellFormed at *
    simp only [List.length_append, List.length_cons]
    omega
  refine ⟨_, _, priqueue_offer_eq q node e hw hn, by omega, ?_, ?_, rfl, ?_⟩
  · unfold WellFormed at hw
    unfold priqueue_size
    omega
  · rw [priqueue_at_eq _ hw' _ (by simp)]
    simp [List.getElem_append_right (le_refl _)]
  · intro a b rest hroot hc ha hb
    have hnb : ¬ q.comparer b.pointer e < 0 := by
      intro hlt
      have h1 := hc.sign_swap b.pointer e
      rw [Int.sign_eq_neg_one_of_neg hlt, Int.sign_eq_neg_one_of_neg hb] at h1
      omega
    simp [hroot, ha, hnb]

/-- Witness of C3: the queue holding `3`, `5`, `8` and the new element `104`. -/
theorem offer_position_witness :
    WellFormed example_queue ∧ (1004 : Ptr) ≠ NULL ∧
    ∃ p q', priqueue_offer example_queue 1004 104 = some (p, q') ∧ 0 ≤ p ∧
      p ≤ priqueue_size example_queue ∧
      priqueue_at q' p = some (104, q') ∧
      priqueue_size q' = priqueue_size example_queue + 1 ∧
      (∀ a b rest, example_queue.root = a :: b :: rest → ThreeWay example_queue.comparer →
        example_queue.comparer a.pointer 104 < 0 → example_queue.comparer 104 b.pointer < 0 →
        p = 1) :=
  ⟨by decide, by decide, offer_position example_queue 1004 104 (by decide) (by decide)⟩

/-! ## C4 -/

/-- C4. On every queue with `size > 0` (and `size` the length of the chain), `priqueue_peek`
returns the element of the first cell and leaves the queue as it is; `priqueue_poll` on that
queue returns the same element; after it `priqueue_size` is the old size minus one and the chain
is the old chain without its first cell, so the former second cell, if any, is the new head. -/
theorem peek_poll_agree (q : priqueue_t) (hw : WellFormed q) (hpos : 0 < q.size) :
    ∃ head rest q', q.root = head :: rest ∧
      priqueue_peek q = some (head.pointer, q) ∧
      priqueue_poll q = some (head.pointer, q') ∧
      priqueue_size q' = priqueue_size q - 1 ∧ q'.root = rest ∧ q'.comparer = q.comparer ∧
      q'.root.head? = q.root.get? 1 := by
  unfold WellFormed at hw
  cases hroot : q.root with
  | nil =>
    rw [hroot] at hw
    simp only [List.length_nil] at hw
    omega
  | cons head rest =>
    have h0 : q.size ≠ 0 := by omega
    refine ⟨head, rest, { q with root := rest, size := q.size - 1 }, rfl, ?_, ?_, rfl, rfl, rfl,
      ?_⟩
    · simp [priqueue_peek, h0, hroot]
    · simp [priqueue_poll, h0, hroot]
    · cases rest <;> simp

/-- Witness of C4: the queue holding `3`, `5`, `8`. -/
theorem peek_poll_agree_witness :
    WellFormed example_queue ∧ 0 < example_queue.size ∧
    ∃ head rest q', example_queue.root = head :: rest ∧
      priqueue_peek example_queue = some (head.pointer, example_queue) ∧
      priqueue_poll example_queue = some (head.pointer, q') ∧
      priqueue_size q' = priqueue_size example_queue - 1 ∧ q'.root = rest ∧
      q'.comparer = example_queue.comparer ∧
      q'.root.head? = example_queue.root.get? 1 :=
  ⟨by decide, by decide, peek_poll_agree example_queue (by decide) (by decide)⟩

/-! ## Removal by value -/

/-- The loop of `priqueue_remove` keeps, in order, the cells that do not compare `0` against
`ptr`; `value` goes up and `size` goes down by the number of cells dropped. -/
theorem remove_loop_eq (comparer : Ptr → Ptr → Int) (ptr : Ptr) (current before : List Node)
    (value size : Int) :
    remove_loop comparer ptr before current value size =
      (before ++ current.filter (fun x => !decide (comparer x.pointer ptr = 0)),
       value + ((current.length : Int) -
         (current.filter (fun x => !decide (comparer x.pointer ptr = 0))).length),
       size - ((current.length : Int) -
         (current.filter (fun x => !decide (comparer x.pointer ptr = 0))).length)) := by
  induction current generalizing before value size with
  | nil => simp [remove_loop]
  | cons c temp ih =>
    by_cases h : comparer c.pointer ptr = 0
    · simp only [remove_loop, h, if_true, ih, decide_True, Bool.not_true, List.length_cons,
        Bool.false_eq_true, not_false_eq_true, List.filter_cons_of_neg, Prod.mk.injEq, true_and]
      push_cast
      constructor <;> omega
    · simp only [remove_loop, h, if_false, ih, decide_False, Bool.not_false, List.length_cons,
        List.filter_cons_of_pos, List.append_assoc, List.singleton_append, Prod.mk.injEq,
        true_and]
      push_cast
      constructor <;> omega

/-- The body of `priqueue_remove` on a chain whose length is `size`: it is defined, the chain left
is a sublist of the old one, the returned number is the number of cells dropped and `size` went
down by it; when no cell passes the test of the function in either argument order, nothing is
dropped. -/
theorem remove_body_spec (comparer : Ptr → Ptr → Int) (ptr : Ptr) (root : List Node) (size : Int)
    (hw : size = (root.length : Int)) :
    ∃ r root', remove_body comparer ptr size root = some (r, size - r, root') ∧
      List.Sublist root' root ∧ r = (root.length : Int) - root'.length ∧
      ((∀ x ∈ root, comparer ptr x.pointer ≠ 0 ∧ comparer x.pointer ptr ≠ 0) → root' = root) := by
  induction root generalizing size with
  | nil =>
    refine ⟨0, [], ?_, List.Sublist.refl _, by simp, fun _ => rfl⟩
    simp only [List.length_nil, Nat.cast_zero] at hw
    simp [remove_body, hw]
  | cons head next ih =>
    simp only [List.length_cons, Nat.cast_add, Nat.cast_one] at hw
    have h1 : ¬ size < 1 := by omega
    by_cases hh : comparer ptr head.pointer = 0
    · obtain ⟨r, root', hrun, hsub, hr, _⟩ := ih (size - 1) (by omega)
      refine ⟨r + 1, root', ?_, hsub.trans (List.sublist_cons_self _ _), ?_, ?_⟩
      · simp only [remove_body, h1, if_false, hh, if_true, hrun]
        simp only [Option.some.injEq, Prod.mk.injEq, true_and, and_true]
        omega
      · simp only [List.length_cons, Nat.cast_add, Nat.cast_one]
        omega
      · intro hall
        exact absurd hh (hall head (List.mem_cons_self _ _)).1
    · have hfl := List.length_filter_le (fun x => !decide (comparer x.pointer ptr = 0)) next
      refine ⟨(next.length : Int) -
          (next.filter (fun x => !decide (comparer x.pointer ptr = 0))).length,
        head :: next.filter (fun x => !decide (comparer x.pointer ptr = 0)), ?_,
        List.Sublist.cons₂ _ (List.filter_sublist _), ?_, ?_⟩
      · simp [remove_body, h1, hh, remove_loop_eq]
      · simp only [List.length_cons, Nat.cast_add, Nat.cast_one]
        omega
      · intro hall
        congr 1
        rw [List.filter_eq_self]
        intro x hx
        simpa using (hall x (List.mem_cons_of_mem _ hx)).2

/-! ## Removal by position -/

/-- The walk of `priqueue_remove_at`: with `index <= 0` it does not move; otherwise it passes
`index` cells, when the chain from `temp` has that many. -/
theorem remove_at_loop_eq (temp before : List Node) (index : Int)
    (hlen : index.toNat ≤ temp.length) :
    remove_at_loop before temp index =
      some (before ++ temp.take index.toNat, temp.drop index.toNat) := by
  induction temp generalizing before index with
  | nil =>
    simp only [List.length_nil, Nat.le_zero, Int.toNat_eq_zero] at hlen
    have : ¬ index > 0 := by omega
    simp [remove_at_loop, this]
  | cons t next ih =>
    by_cases h : index > 0
    · have hstep : index.toNat = (index - 1).toNat + 1 := by omega
      simp only [remove_at_loop, h, if_true]
      rw [ih (before ++ [t]) (index - 1) (by simp only [List.length_cons] at hlen; omega), hstep]
      simp
    · have h0 : index.toNat = 0 := by omega
      simp [remove_at_loop, h, h0]

/-- On a queue whose `size` is the length of its chain, `priqueue_remove_at` at a position
inside the chain returns the address of the cell at that position, lowers `size` by one and
leaves the chain with that position erased. -/
theorem priqueue_remove_at_eq (q : priqueue_t) (hw : WellFormed q) (n : Nat)
    (hn : n < q.root.length) :
    priqueue_remove_at q (n : Int) =
      some ((q.root.get ⟨n, hn⟩).addr, { q with size := q.size - 1, root := q.root.eraseIdx n }) := by
  obtain ⟨size, comparer, chain⟩ := q
  simp only [WellFormed] at hw hn
  unfold priqueue_remove_at
  have h1 : ¬ (n : Int) > size - 1 := by omega
  simp only [h1, if_false]
  cases chain with
  | nil => simp at hn
  | cons root next =>
    cases n with
    | zero => simp
    | succ m =>
      have hm : m < next.length := by
        simp only [List.length_cons] at hn
        omega
      have h2 : ¬ ((m + 1 : Nat) : Int) = 0 := by omega
      have h3 : (((m + 1 : Nat) : Int) - 1).toNat = m := by omega
      simp only [h2, if_false]
      rw [remove_at_loop_eq next [root] _ (by omega), h3, List.drop_eq_getElem_cons hm]
      simp [List.eraseIdx_eq_take_drop_succ]

/-- The same as `priqueue_at_eq`, with the cell looked up by `List.get?`. -/
theorem priqueue_at_get? (q : priqueue_t) (hw : WellFormed q) (n : Nat) (hn : n < q.root.length) :
    priqueue_at q (n : Int) = (q.root.get? n).map (fun c => (c.pointer, q)) := by
  rw [priqueue_at_eq q hw n hn, List.get?_eq_get hn]
  rfl

/-! ## C5 -/

/-- C5, the code at the failing input.  The queue holds `3`, `3`, `5`, `8` as the elements `104`,
`102`, `101`, `103`; `priqueue_remove` with the target `102` returns `2` and leaves only `101` and
`103`: the cell holding `104`, a reference different from the target and comparator-equal to it,
is removed as well. -/
theorem remove_matches_by_comparer :
    (priqueue_remove example_queue_ties 102).map (fun r => (r.1, r.2.size, r.2.root)) =
      some (2, 2, [⟨1001, 101⟩, ⟨1003, 103⟩]) ∧
    (104 : Ptr) ≠ 102 ∧ numeric_comparer 102 104 = 0 := by
  decide

/-! ## C6 -/

/-- The count relation of `priqueue_remove`, which holds on every queue (its `size` the length
of its chain) and for every target: the call is defined, the cells left are a sublist of the
old chain, the returned number is the number of cells removed, and it is the old `size` minus
the new `size`.  When the queue is empty, or the test of the function (`comparer == 0`) holds
for no cell in either argument order, the returned number is `0` and the queue is unchanged.
On the queue holding `3`, `3`, `5`, `8` under the numeric comparator, removing a `3` returns `2`
and leaves `5`, `8`. -/
theorem remove_returns_count (q : priqueue_t) (ptr : Ptr) (hw : WellFormed q) :
    ∃ r q', priqueue_remove q ptr = some (r, q') ∧
      List.Sublist q'.root q.root ∧ q'.comparer = q.comparer ∧
      r = (q.root.length : Int) - q'.root.length ∧
      r = priqueue_size q - priqueue_size q' ∧
      (priqueue_size q = 0 → r = 0 ∧ q' = q) ∧
      ((∀ x ∈ q.root, q.comparer ptr x.pointer ≠ 0 ∧ q.comparer x.pointer ptr ≠ 0) →
        r = 0 ∧ q' = q) ∧
      (priqueue_remove example_queue_ties 102).map
        (fun s => (s.1, s.2.root.map (fun x => example_value x.pointer))) = some (2, [5, 8]) := by
  obtain ⟨r, root', hrun, hsub, hr, hnone⟩ := remove_body_spec q.comparer ptr q.root q.size hw
  refine ⟨r, { q with size := q.size - r, root := root' }, ?_, hsub, rfl, hr, ?_, ?_, ?_,
    by decide⟩
  · simp [priqueue_remove, hrun]
  · simp only [priqueue_size]
    omega
  · intro h0
    unfold WellFormed at hw
    simp only [priqueue_size] at h0
    have hnil : q.root = [] := List.length_eq_zero.mp (by omega)
    have hnil' : root' = [] := by
      rw [hnil] at hsub
      exact List.sublist_nil.mp hsub
    have hr0 : r = 0 := by simp [hr, hnil, hnil']
    refine ⟨hr0, ?_⟩
    obtain ⟨size, comparer, chain⟩ := q
    simp only at hnil
    simp [hr0, hnil, hnil']
  · intro hall
    have hroot := hnone hall
    have hr0 : r = 0 := by simp [hr, hroot]
    refine ⟨hr0, ?_⟩
    obtain ⟨size, comparer, chain⟩ := q
    simp only at hroot
    simp [hr0, hroot]

/-- C6, the code at the failing input.  The queue holds `3`, `5`, `8` as the elements `102`,
`101`, `103`; no cell holds the element `104`, so no node matches the target `104`.
`priqueue_remove` with the target `104` nevertheless returns `1`, not `0`, and changes the
queue: it unlinks the cell holding `102`, which is comparator-equal to `104`, and leaves `size`
`2` with the elements `101`, `103`. -/
theorem remove_counts_other_reference :
    (∀ x ∈ example_queue.root, x.pointer ≠ 104) ∧
    (priqueue_remove example_queue 104).map (fun r => (r.1, r.2.size, r.2.root)) =
      some (1, 2, [⟨1001, 101⟩, ⟨1003, 103⟩]) ∧
    example_queue.size = 3 ∧ numeric_comparer 104 102 = 0 := by
  decide

/-! ## The count invariant along insert and remove operations -/

theorem wellFormed_offer {q q' : priqueue_t} {node ptr : Ptr} {p : Int} (hw : WellFormed q)
    (h : priqueue_offer q node ptr = some (p, q')) : WellFormed q' := by
  by_cases hn : node = NULL
  · simp [priqueue_offer, hn] at h
  · rw [priqueue_offer_eq q node ptr hw hn] at h
    simp only [Option.some.injEq, Prod.mk.injEq] at h
    rw [← h.2]
    have hlen := congrArg List.length (List.takeWhile_append_dropWhile
      (fun x => decide (q.comparer x.pointer ptr < 0)) q.root)
    unfold WellFormed at *
    simp only [List.length_append, List.length_cons] at hlen ⊢
    omega

theorem wellFormed_poll {q q' : priqueue_t} {r : Ptr} (hw : WellFormed q)
    (h : priqueue_poll q = some (r, q')) : WellFormed q' := by
  unfold priqueue_poll at h
  by_cases h0 : q.size = 0
  · simp only [h0, if_true, Option.some.injEq, Prod.mk.injEq] at h
    rw [← h.2]
    exact hw
  · rw [if_neg h0] at h
    cases hroot : q.root with
    | nil => simp [hroot] at h
    | cons temp next =>
      simp only [hroot, Option.some.injEq, Prod.mk.injEq] at h
      rw [← h.2]
      unfold WellFormed at *
      simp only [hroot, List.length_cons] at hw ⊢
      omega

theorem wellFormed_remove {q q' : priqueue_t} {ptr : Ptr} {r : Int} (hw : WellFormed q)
    (h : priqueue_remove q ptr = some (r, q')) : WellFormed q' := by
  obtain ⟨r', root', hrun, hsub, hr, _⟩ := remove_body_spec q.comparer ptr q.root q.size hw
  simp only [priqueue_remove, hrun, Option.some.injEq, Prod.mk.injEq] at h
  rw [← h.2]
  have hle := hsub.length_le
  unfold WellFormed at *
  simp only
  omega

theorem wellFormed_remove_at {q q' : priqueue_t} {index : Int} {r : Ptr} (hw : WellFormed q)
    (h : priqueue_remove_at q index = some (r, q')) : WellFormed q' := by
  obtain ⟨size, comparer, chain⟩ := q
  simp only [WellFormed] at hw
  unfold priqueue_remove_at at h
  by_cases h1 : index > size - 1
  · simp only [h1, if_true, Option.some.injEq, Prod.mk.injEq] at h
    rw [← h.2]
    exact hw
  · simp only [h1, if_false] at h
    cases chain with
    | nil => simp at h
    | cons root next =>
      simp only [List.length_cons] at hw
      by_cases h2 : index = 0
      · simp only [h2, if_true, Option.some.injEq, Prod.mk.injEq] at h
        rw [← h.2]
        simp only [WellFormed]
        omega
      · simp only [h2, if_false] at h
        rw [remove_at_loop_eq next [root] (index - 1) (by omega)] at h
        generalize (index - 1).toNat = k at h
        cases hd : next.drop k with
        | nil => simp [hd] at h
        | cons temp next' =>
          simp only [hd, Option.some.injEq, Prod.mk.injEq] at h
          rw [← h.2]
          have hlen := congrArg List.length hd
          simp only [List.length_drop, List.length_cons] at hlen
          simp only [WellFormed, List.length_append, List.length_cons, List.length_nil,
            List.length_take]
          omega

/-- Every queue reachable from `priqueue_init` by insert and remove operations has `size` equal
to the length of its chain. -/
theorem Reachable.wellFormed {q : priqueue_t} (h : Reachable q) : WellFormed q := by
  induction h with
  | init comparer => simp [WellFormed, priqueue_init]
  | offer node ptr p _ hrun ih => exact wellFormed_offer ih hrun
  | poll r _ hrun ih => exact wellFormed_poll ih hrun
  | remove ptr r _ hrun ih => exact wellFormed_remove ih hrun
  | remove_at index r _ hrun ih => exact wellFormed_remove_at ih hrun

/-- The queue holding `3`, `5`, `8` is reached by offering `3`, `5`, `8` to a fresh queue. -/
theorem reachable_example_queue : Reachable example_queue :=
  Reachable.offer (q := ⟨2, numeric_comparer, [⟨1002, 102⟩, ⟨1001, 101⟩]⟩) 1003 103 2
    (Reachable.offer (q := ⟨1, numeric_comparer, [⟨1002, 102⟩]⟩) 1001 101 1
      (Reachable.offer 1002 102 0 (Reachable.init numeric_comparer) rfl) rfl) rfl

/-! ## C7 -/

/-- C7, the claim as stated fails.  Offering the element `NULL` to a fresh queue reaches a queue
of `size` `1`; `priqueue_at` at the valid index `0` returns the element of the first cell, which
is `NULL`, the empty sentinel, so the number of indices in `[0, size)` at which `priqueue_at`
returns a present value is `0`, not `size`. -/
theorem at_stored_null_not_present :
    Reachable example_queue_null ∧ priqueue_size example_queue_null = 1 ∧
    (priqueue_at example_queue_null 0).map Prod.fst = some NULL ∧
    ((List.range (priqueue_size example_queue_null).toNat).filter
      (fun i : Nat => present (priqueue_at example_queue_null (i : Int)))).length = 0 ∧
    ¬ (((List.range (priqueue_size example_queue_null).toNat).filter
      (fun i : Nat => present (priqueue_at example_queue_null (i : Int)))).length : Int) =
        priqueue_size example_queue_null :=
  ⟨Reachable.offer 1001 NULL 0 (Reachable.init numeric_comparer) rfl, by decide, by decide,
    by decide, by decide⟩

/-- C7 as amended.  On every queue reachable from `priqueue_init` by insert and remove operations
and for every index `i` with `0 <= i < size`, `priqueue_at` returns the element held by the
`i`-th cell counted from the head and leaves the queue unchanged; hence, when no stored
element is `NULL`, `priqueue_size` equals the number of indices in `[0, size)` at which
`priqueue_at` returns a present value (a value that is not the empty sentinel `NULL`). -/
theorem at_valid_index (q : priqueue_t) (hr : Reachable q) :
    (∀ i : Int, 0 ≤ i → i < priqueue_size q →
      ∃ cell, q.root.get? i.toNat = some cell ∧ priqueue_at q i = some (cell.pointer, q)) ∧
    ((∀ x ∈ q.root, x.pointer ≠ NULL) →
      (((List.range (priqueue_size q).toNat).filter
        (fun i : Nat => present (priqueue_at q (i : Int)))).length : Int) = priqueue_size q) := by
  have hw := hr.wellFormed
  have hsize : priqueue_size q = (q.root.length : Int) := hw
  have hat : ∀ i : Int, 0 ≤ i → i < priqueue_size q →
      ∃ cell, q.root.get? i.toNat = some cell ∧ priqueue_at q i = some (cell.pointer, q) := by
    intro i h0 hi
    have hn : i.toNat < q.root.length := by omega
    refine ⟨q.root.get ⟨i.toNat, hn⟩, List.get?_eq_get hn, ?_⟩
    have hcast : ((i.toNat : Nat) : Int) = i := Int.toNat_of_nonneg h0
    have := priqueue_at_eq q hw i.toNat hn
    rwa [hcast] at this
  refine ⟨hat, ?_⟩
  intro helems
  have hall : (List.range (priqueue_size q).toNat).filter
      (fun i : Nat => present (priqueue_at q (i : Int))) = List.range (priqueue_size q).toNat := by
    rw [List.filter_eq_self]
    intro n hn
    rw [List.mem_range] at hn
    obtain ⟨cell, hcell, hval⟩ := hat (n : Int) (by omega) (by omega)
    rw [hval]
    simp only [present, decide_eq_true_eq]
    exact helems cell (List.get?_mem hcell)
  rw [hall, List.length_range]
  omega

/-- Witness of the amended C7: the queue holding `3`, `5`, `8`. -/
theorem at_valid_index_witness :
    Reachable example_queue ∧
    (∀ i : Int, 0 ≤ i → i < priqueue_size example_queue →
      ∃ cell, example_queue.root.get? i.toNat = some cell ∧
        priqueue_at example_queue i = some (cell.pointer, example_queue)) ∧
    ((∀ x ∈ example_queue.root, x.pointer ≠ NULL) →
      (((List.range (priqueue_size example_queue).toNat).filter
        (fun i : Nat => present (priqueue_at example_queue (i : Int)))).length : Int) =
        priqueue_size example_queue) :=
  ⟨reachable_example_queue, at_valid_index example_queue reachable_example_queue⟩

/-! ## C8 -/

/-- At an index `>= size`, `priqueue_at` returns `NULL` and the queue itself. -/
theorem priqueue_at_beyond (q : priqueue_t) (index : Int) (h : q.size ≤ index) :
    priqueue_at q index = some (NULL, q) := by
  simp [priqueue_at, h]

/-- C8, the code at the failing input.  On the queue holding `3`, `5`, `8` (elements `102`,
`101`, `103`), `priqueue_at` with the index `-1` returns the element `102` of the first cell,
which is not `NULL`; on the empty queue the same call reads the element of a missing cell and has
no defined result. -/
theorem at_negative_index :
    (priqueue_at example_queue (-1)).map Prod.fst = some 102 ∧ (102 : Ptr) ≠ NULL ∧
    (priqueue_at (priqueue_init numeric_comparer) (-1)).isNone = true := by
  decide

/-! ## C9 -/

/-- C9, the code at the failing input.  On the queue holding `3`, `5`, `8` in the cells at
`1002`, `1001`, `1003`, `priqueue_remove_at` with the index `1` returns `1001`, the address of
the unlinked cell, whereas `priqueue_at` with the index `1` returned the element `101` stored in
that cell. -/
theorem remove_at_returns_cell :
    (priqueue_remove_at example_queue 1).map Prod.fst = some 1001 ∧
    (priqueue_at example_queue 1).map Prod.fst = some 101 := by
  decide

/-! ## C10 -/

/-- C10. On every queue (its `size` the length of its chain) and for every index `k` with
`0 <= k < size`, `priqueue_remove_at` is defined; after it `priqueue_size` is the old size
minus one, the chain is the old chain with position `k` erased, `priqueue_at` at every
position `j < k` returns what it returned before, and `priqueue_at` at every `j` with
`k <= j < new size` returns what it returned before at `j + 1`. -/
theorem remove_at_effect (q : priqueue_t) (hw : WellFormed q) (k : Int) (h0 : 0 ≤ k)
    (hk : k < priqueue_size q) :
    ∃ r q', priqueue_remove_at q k = some (r, q') ∧
      priqueue_size q' = priqueue_size q - 1 ∧ q'.root = q.root.eraseIdx k.toNat ∧
      q'.comparer = q.comparer ∧
      (∀ j : Int, 0 ≤ j → j < k →
        ∃ v, priqueue_at q j = some (v, q) ∧ priqueue_at q' j = some (v, q')) ∧
      (∀ j : Int, k ≤ j → j < priqueue_size q' →
        ∃ v, priqueue_at q (j + 1) = some (v, q) ∧ priqueue_at q' j = some (v, q')) := by
  have hsize : q.size = (q.root.length : Int) := hw
  simp only [priqueue_size] at hk
  have hn : k.toNat < q.root.length := by omega
  have hrun := priqueue_remove_at_eq q hw k.toNat hn
  rw [Int.toNat_of_nonneg h0] at hrun
  have hlen : (q.root.eraseIdx k.toNat).length = q.root.length - 1 :=
    List.length_eraseIdx_of_lt hn
  have hw' : WellFormed { q with size := q.size - 1, root := q.root.eraseIdx k.toNat } := by
    simp only [WellFormed, hlen]
    omega
  refine ⟨_, _, hrun, rfl, rfl, rfl, ?_, ?_⟩
  · intro j hj0 hjk
    have hj : j.toNat < q.root.length := by omega
    have hj' : j.toNat < (q.root.eraseIdx k.toNat).length := by omega
    have e1 := priqueue_at_get? q hw j.toNat hj
    have e2 := priqueue_at_get? _ hw' j.toNat hj'
    rw [Int.toNat_of_nonneg hj0] at e1 e2
    simp only [List.get?_eq_getElem?] at e1 e2
    rw [List.getElem?_eraseIdx_of_lt _ _ _ (by omega)] at e2
    rw [List.getElem?_eq_getElem hj] at e1 e2
    exact ⟨_, e1, e2⟩
  · intro j hkj hjs
    simp only [priqueue_size] at hjs
    have hj0 : 0 ≤ j := by omega
    have hj : (j + 1).toNat < q.root.length := by omega
    have hj' : j.toNat < (q.root.eraseIdx k.toNat).length := by omega
    have e1 := priqueue_at_get? q hw (j + 1).toNat hj
    have e2 := priqueue_at_get? _ hw' j.toNat hj'
    rw [Int.toNat_of_nonneg hj0] at e2
    rw [Int.toNat_of_nonneg (by omega)] at e1
    simp only [List.get?_eq_getElem?] at e1 e2
    rw [List.getElem?_eraseIdx_of_ge _ _ _ (by omega)] at e2
    have hstep : (j + 1).toNat = j.toNat + 1 := by omega
    rw [hstep] at e1 hj
    rw [List.getElem?_eq_getElem hj] at e1 e2
    exact ⟨_, e1, e2⟩

/-- Witness of C10: the queue holding `3`, `5`, `8` and the index `1`. -/
theorem remove_at_effect_witness :
    WellFormed example_queue ∧ (0 : Int) ≤ 1 ∧ 1 < priqueue_size example_queue ∧
    ∃ r q', priqueue_remove_at example_queue 1 = some (r, q') ∧
      priqueue_size q' = priqueue_size example_queue - 1 ∧
      q'.root = example_queue.root.eraseIdx (1 : Int).toNat ∧
      q'.comparer = example_queue.comparer ∧
      (∀ j : Int, 0 ≤ j → j < 1 →
        ∃ v, priqueue_at example_queue j = some (v, example_queue) ∧
          priqueue_at q' j = some (v, q')) ∧
      (∀ j : Int, 1 ≤ j → j < priqueue_size q' →
        ∃ v, priqueue_at example_queue (j + 1) = some (v, example_queue) ∧
          priqueue_at q' j = some (v, q')) :=
  ⟨by decide, by decide, by decide,
    remove_at_effect example_queue (by decide) 1 (by decide) (by decide)⟩

/-! ## C11 -/

/-- At an index `> size - 1`, `priqueue_remove_at` returns `NULL` and the queue itself. -/
theorem priqueue_remove_at_beyond (q : priqueue_t) (index : Int) (h : q.size ≤ index) :
    priqueue_remove_at q index = some (NULL, q) := by
  have h1 : index > q.size - 1 := by omega
  simp [priqueue_remove_at, h1]

/-- C11, the code at the failing input.  On the queue holding `3`, `5`, `8` in the cells at
`1002`, `1001`, `1003`, `priqueue_remove_at` with the index `-1` does not return `NULL`: it
unlinks the second cell, returns its address `1001` and lowers `size` to `2`.  On the queue of
one cell the same call follows the link of a missing cell and has no defined result.  (With the
index `size` the call does return `NULL` and `size` stays `3`.) -/
theorem remove_at_negative_index :
    (priqueue_remove_at example_queue (-1)).map (fun r => (r.1, r.2.size, r.2.root)) =
      some (1001, 2, [⟨1002, 102⟩, ⟨1003, 103⟩]) ∧
    (priqueue_remove_at example_queue_one (-1)).isNone = true ∧
    (priqueue_remove_at example_queue (priqueue_size example_queue)).map
      (fun r => (r.1, r.2.size, r.2.root)) =
      some (NULL, 3, [⟨1002, 102⟩, ⟨1001, 101⟩, ⟨1003, 103⟩]) := by
  decide

/-! ## Teardown -/

/-- On a queue whose `size` is the length of its chain, `priqueue_destroy` is defined and leaves
`size = 0` and the empty chain. -/
theorem priqueue_destroy_eq (q : priqueue_t) (hw : WellFormed q) :
    priqueue_destroy q = some { q with size := 0, root := [] } := by
  obtain ⟨size, comparer, chain⟩ := q
  simp only [WellFormed] at hw
  induction chain generalizing size with
  | nil =>
    rw [priqueue_destroy]
    simp only [List.length_nil, Nat.cast_zero] at hw
    simp [hw]
  | cons c next ih =>
    rw [priqueue_destroy]
    simp only [List.length_cons, Nat.cast_add, Nat.cast_one] at hw
    have h1 : size > 0 := by omega
    have h2 : ¬ (0 : Int) > size - 1 := by omega
    have hcall : priqueue_remove_at ⟨size, comparer, c :: next⟩ 0 =
        some (c.addr, ⟨size - 1, comparer, next⟩) := by
      simp [priqueue_remove_at, h2]
    simp only [h1, dite_true]
    split
    · rename_i hnone
      rw [hcall] at hnone
      exact absurd hnone (by simp)
    · rename_i r q' hsome
      rw [hcall] at hsome
      simp only [Option.some.injEq, Prod.mk.injEq] at hsome
      rw [← hsome.2]
      exact ih (size - 1) (by omega)

/-! ## C12 -/

theorem peek_same_queue {q q' : priqueue_t} {r : Ptr} (h : priqueue_peek q = some (r, q')) :
    q' = q := by
  unfold priqueue_peek at h
  split at h
  · split at h
    · exact absurd h (by simp)
    · simp only [Option.some.injEq, Prod.mk.injEq] at h
      exact h.2.symm
  · simp only [Option.some.injEq, Prod.mk.injEq] at h
    exact h.2.symm

theorem at_same_queue {q q' : priqueue_t} {index : Int} {r : Ptr}
    (h : priqueue_at q index = some (r, q')) : q' = q := by
  unfold priqueue_at at h
  split at h
  · simp only [Option.some.injEq, Prod.mk.injEq] at h
    exact h.2.symm
  · split at h
    · exact absurd h (by simp)
    · exact absurd h (by simp)
    · simp only [Option.some.injEq, Prod.mk.injEq] at h
      exact h.2.symm

/-- Every queue state reachable by calls of the seven operations has `size` equal to the length of
its chain. -/
theorem ReachableByCalls.size_eq_length {q : priqueue_t} (h : ReachableByCalls q) :
    WellFormed q := by
  induction h with
  | init comparer => simp [WellFormed, priqueue_init]
  | offer node ptr p _ hrun ih => exact wellFormed_offer ih hrun
  | peek r _ hrun ih => rw [peek_same_queue hrun]; exact ih
  | poll r _ hrun ih => exact wellFormed_poll ih hrun
  | at_index index r _ hrun ih => rw [at_same_queue hrun]; exact ih
  | remove ptr r _ hrun ih => exact wellFormed_remove ih hrun
  | remove_at index r _ hrun ih => exact wellFormed_remove_at ih hrun
  | destroy _ hrun ih =>
    rw [priqueue_destroy_eq _ ih] at hrun
    simp only [Option.some.injEq] at hrun
    rw [← hrun]
    simp [WellFormed]

/-- C12. In every queue state reachable from `priqueue_init` by a finite sequence of
`priqueue_offer`, `priqueue_peek`, `priqueue_poll`, `priqueue_at`, `priqueue_remove`,
`priqueue_remove_at` and `priqueue_destroy` calls with arbitrary arguments (a state being what
a call with a defined result leaves), `size` equals the number of cells of the chain from the
head to the terminal link, and therefore the head is empty if and only if `size == 0`. -/
theorem count_invariant (q : priqueue_t) (h : ReachableByCalls q) :
    priqueue_size q = (q.root.length : Int) ∧ (q.root = [] ↔ priqueue_size q = 0) := by
  have hw : q.size = (q.root.length : Int) := h.size_eq_length
  refine ⟨hw, ?_⟩
  simp only [priqueue_size]
  constructor
  · intro hnil
    rw [hw, hnil]
    rfl
  · intro h0
    exact List.length_eq_zero.mp (by omega)

/-- The queue holding `3`, `5`, `8`, emptied by `priqueue_destroy` after a `priqueue_poll`, a
`priqueue_remove_at` with a negative index and look-ups, is reachable by calls. -/
theorem reachableByCalls_example :
    ReachableByCalls ⟨0, numeric_comparer, []⟩ :=
  ReachableByCalls.destroy (q := ⟨1, numeric_comparer, [⟨1001, 101⟩]⟩)
    (ReachableByCalls.remove_at (q := ⟨2, numeric_comparer, [⟨1001, 101⟩, ⟨1003, 103⟩]⟩) (-1) 1003
      (ReachableByCalls.at_index (q := ⟨2, numeric_comparer, [⟨1001, 101⟩, ⟨1003, 103⟩]⟩) 5 NULL
        (ReachableByCalls.poll (q := example_queue) 102
          (ReachableByCalls.peek (q := example_queue) 102
            (ReachableByCalls.offer (q := ⟨2, numeric_comparer, [⟨1002, 102⟩, ⟨1001, 101⟩]⟩)
              1003 103 2
              (ReachableByCalls.offer (q := ⟨1, numeric_comparer, [⟨1002, 102⟩]⟩) 1001 101 1
                (ReachableByCalls.offer 1002 102 0 (ReachableByCalls.init numeric_comparer) rfl)
                rfl) rfl) rfl) rfl) rfl) (by simp [priqueue_remove_at, remove_at_loop]))
    (priqueue_destroy_eq ⟨1, numeric_comparer, [⟨1001, 101⟩]⟩ (by decide))

/-- Witness of C12: a queue reached through offers, a peek, a poll, a look-up, a removal by
position and a teardown. -/
theorem count_invariant_witness :
    ReachableByCalls ⟨0, numeric_comparer, []⟩ ∧
    priqueue_size ⟨0, numeric_comparer, []⟩ =
      (((⟨0, numeric_comparer, []⟩ : priqueue_t).root.length : Nat) : Int) ∧
    ((⟨0, numeric_comparer, []⟩ : priqueue_t).root = [] ↔
      priqueue_size ⟨0, numeric_comparer, []⟩ = 0) :=
  ⟨reachableByCalls_example, count_invariant _ reachableByCalls_example⟩

/-! ## C13 -/

/-- C13. On every queue with `size == 0` (its `size` the length of its chain: freshly initialised,
or emptied by removals) the head is empty, and `priqueue_peek` and `priqueue_poll` both return
`NULL` and leave the queue as it is, so `size` is still `0` and the head still empty. -/
theorem empty_queue_sentinels (q : priqueue_t) (hw : WellFormed q) (h0 : priqueue_size q = 0) :
    q.root = [] ∧ priqueue_peek q = some (NULL, q) ∧ priqueue_poll q = some (NULL, q) := by
  simp only [priqueue_size] at h0
  unfold WellFormed at hw
  refine ⟨List.length_eq_zero.mp (by omega), ?_, ?_⟩
  · simp [priqueue_peek, h0]
  · simp [priqueue_poll, h0]

/-- Witness of C13: the freshly initialised queue. -/
theorem empty_queue_sentinels_witness :
    WellFormed (priqueue_init numeric_comparer) ∧
    priqueue_size (priqueue_init numeric_comparer) = 0 ∧
    (priqueue_init numeric_comparer).root = [] ∧
    priqueue_peek (priqueue_init numeric_comparer) =
      some (NULL, priqueue_init numeric_comparer) ∧
    priqueue_poll (priqueue_init numeric_comparer) =
      some (NULL, priqueue_init numeric_comparer) :=
  ⟨by decide, by decide,
    empty_queue_sentinels (priqueue_init numeric_comparer) (by decide) (by decide)⟩

/-! ## C14 -/

/-- C15. On every initialised queue (its `size` the length of its chain, empty or not),
`priqueue_destroy` is defined and leaves `size == 0` with no cell left; a second
`priqueue_destroy` right after it is defined, changes nothing and again leaves `size == 0`. -/
theorem destroy_twice (q : priqueue_t) (hw : WellFormed q) :
    ∃ q', priqueue_destroy q = some q' ∧ priqueue_size q' = 0 ∧ q'.root = [] ∧
      q'.comparer = q.comparer ∧ priqueue_destroy q' = some q' := by
  refine ⟨{ q with size := 0, root := [] }, priqueue_destroy_eq q hw, rfl, rfl, rfl, ?_⟩
  exact priqueue_destroy_eq { q with size := 0, root := [] } (by simp [WellFormed])

/-- Witness of C15: the queue holding `3`, `5`, `8`. -/
theorem destroy_twice_witness :
    WellFormed example_queue ∧
    ∃ q', priqueue_destroy example_queue = some q' ∧ priqueue_size q' = 0 ∧ q'.root = [] ∧
      q'.comparer = example_queue.comparer ∧ priqueue_destroy q' = some q' :=
  ⟨by decide, destroy_twice example_queue (by decide)⟩

/-! ## C16 -/

/-- Outside negative indices every operation is defined on a queue whose `size` is the length of
its chain (the allocation in `priqueue_offer` succeeding). -/
theorem defined_on_valid_arguments (q : priqueue_t) (hw : WellFormed q) :
    (∀ node ptr, node ≠ NULL → (priqueue_offer q node ptr).isSome = true) ∧
    (priqueue_peek q).isSome = true ∧ (priqueue_poll q).isSome = true ∧
    (∀ index, 0 ≤ index → (priqueue_at q index).isSome = true) ∧
    (∀ ptr, (priqueue_remove q ptr).isSome = true) ∧
    (∀ index, 0 ≤ index → (priqueue_remove_at q index).isSome = true) ∧
    (priqueue_destroy q).isSome = true := by
  have hsize : q.size = (q.root.length : Int) := hw
  refine ⟨?_, ?_, ?_, ?_, ?_, ?_, ?_⟩
  · intro node ptr hn
    rw [priqueue_offer_eq q node ptr hw hn]
    rfl
  · unfold priqueue_peek
    cases hroot : q.root with
    | nil =>
      have h0 : q.size = 0 := by simp [hsize, hroot]
      simp [h0]
    | cons a rest => split <;> rfl
  · unfold priqueue_poll
    cases hroot : q.root with
    | nil =>
      have h0 : q.size = 0 := by simp [hsize, hroot]
      simp [h0]
    | cons a rest => split <;> rfl
  · intro index h0
    by_cases hb : q.size ≤ index
    · rw [priqueue_at_beyond q index hb]
      rfl
    · have hn : index.toNat < q.root.length := by omega
      have := priqueue_at_eq q hw index.toNat hn
      rw [Int.toNat_of_nonneg h0] at this
      rw [this]
      rfl
  · intro ptr
    obtain ⟨r, root', hrun, _⟩ := remove_body_spec q.comparer ptr q.root q.size hw
    simp [priqueue_remove, hrun]
  · intro index h0
    by_cases hb : q.size ≤ index
    · rw [priqueue_remove_at_beyond q index hb]
      rfl
    · have hn : index.toNat < q.root.length := by omega
      have := priqueue_remove_at_eq q hw index.toNat hn
      rw [Int.toNat_of_nonneg h0] at this
      rw [this]
      rfl
  · rw [priqueue_destroy_eq q hw]
    rfl

/-- C16, the code at the failing inputs.  The freshly initialised queue is a reachable state and
`-1` is an integer index; on it `priqueue_at` with the index `-1` reads the element of the
missing head cell and `priqueue_remove_at` with the index `-1` follows its link: neither has a
defined result.  On the reachable queue of one cell `priqueue_remove_at` with the index `-1`
follows the link of the missing second cell. -/
theorem negative_index_undefined :
    (priqueue_at (priqueue_init numeric_comparer) (-1)).isNone = true ∧
    (priqueue_remove_at (priqueue_init numeric_comparer) (-1)).isNone = true ∧
    (priqueue_offer (priqueue_init numeric_comparer) 1002 102).map
      (fun r => (r.2.size, r.2.root)) = some (example_queue_one.size, example_queue_one.root) ∧
    (priqueue_remove_at example_queue_one (-1)).isNone = true := by
  decide

/-! ## C17 -/

theorem take_drop_of_append {xs pre post : List Node} (h : pre ++ post = xs) :
    xs.take pre.length = pre ∧ xs.drop pre.length = post := by
  subst h
  exact ⟨List.take_left _ _, List.drop_left _ _⟩

theorem eraseIdx_inserted (pre post : List Node) (a : Node) :
    (pre ++ a :: post).eraseIdx pre.length = pre ++ post := by
  induction pre with
  | nil => rfl
  | cons b pre ih => simp [ih]

/-- C17. On every queue (its `size` the length of its chain) with chain `xs`, for every comparator
and every element `e`, `priqueue_offer` (its allocation succeeding) returns the length `p` of the
longest prefix of `xs` whose elements `x` all satisfy `comparer(x, e) < 0`: the first `p`
elements satisfy it, the next one, if any, does not, and no longer prefix satisfies it.  The new
chain is the first `p` cells of `xs`, the new cell, then the remaining cells of `xs`, so no
cell is dropped or reordered.  `p = 0` on the empty queue and `p` is the length of `xs` when
no element fails the condition. -/
theorem offer_scan_rule (q : priqueue_t) (node e : Ptr) (hw : WellFormed q) (hn : node ≠ NULL) :
    ∃ p : Nat, p ≤ q.root.length ∧
      (∀ x ∈ q.root.take p, q.comparer x.pointer e < 0) ∧
      (∀ y ∈ (q.root.drop p).head?, ¬ q.comparer y.pointer e < 0) ∧
      (∀ k, k ≤ q.root.length → (∀ x ∈ q.root.take k, q.comparer x.pointer e < 0) → k ≤ p) ∧
      priqueue_offer q node e = some ((p : Int),
        { q with size := q.size + 1, root := q.root.take p ++ ⟨node, e⟩ :: q.root.drop p }) ∧
      (q.root.take p ++ ⟨node, e⟩ :: q.root.drop p).eraseIdx p = q.root ∧
      (q.root = [] → p = 0) ∧
      ((∀ x ∈ q.root, q.comparer x.pointer e < 0) → p = q.root.length) := by
  have hsplit := List.takeWhile_append_dropWhile
    (fun x => decide (q.comparer x.pointer e < 0)) q.root
  have hlen := congrArg List.length hsplit
  simp only [List.length_append] at hlen
  obtain ⟨htake, hdrop⟩ := take_drop_of_append hsplit
  have hhead : ∀ y ∈ (q.root.dropWhile
      (fun x => decide (q.comparer x.pointer e < 0))).head?, ¬ q.comparer y.pointer e < 0 := by
    intro y hy
    have hnot := List.head?_dropWhile_not (fun x => decide (q.comparer x.pointer e < 0)) q.root
    rw [Option.mem_def] at hy
    rw [hy] at hnot
    simpa using hnot
  refine ⟨(q.root.takeWhile (fun x => decide (q.comparer x.pointer e < 0))).length, by omega,
    ?_, ?_, ?_, ?_, ?_, ?_, ?_⟩
  · rw [htake]
    intro x hx
    simpa using List.mem_takeWhile_imp hx
  · rw [hdrop]
    exact hhead
  · intro k hk hall
    by_contra hlt
    have hp : (q.root.takeWhile (fun x => decide (q.comparer x.pointer e < 0))).length <
        q.root.length := by omega
    have hget : (q.root.drop (q.root.takeWhile
        (fun x => decide (q.comparer x.pointer e < 0))).length).head? =
        some (q.root.get ⟨_, hp⟩) := by
      rw [List.drop_eq_getElem_cons hp]
      rfl
    rw [hdrop] at hget
    have hbad := hhead _ (by rw [hget]; rfl)
    apply hbad
    apply hall
    rw [List.mem_take_iff_getElem]
    exact ⟨_, by omega, rfl⟩
  · rw [htake, hdrop]
    exact priqueue_offer_eq q node e hw hn
  · rw [htake, hdrop]
    exact (eraseIdx_inserted _ _ _).trans hsplit
  · intro hnil
    simp [hnil]
  · intro hall
    have : q.root.takeWhile (fun x => decide (q.comparer x.pointer e < 0)) = q.root := by
      rw [List.takeWhile_eq_self_iff]
      intro x hx
      simpa using hall x hx
    rw [this]

/-- Witness of C17: the queue holding `3`, `5`, `8` and the new element `104` (value `3`). -/
theorem offer_scan_rule_witness :
    WellFormed example_queue ∧ (1004 : Ptr) ≠ NULL ∧
    ∃ p : Nat, p ≤ example_queue.root.length ∧
      (∀ x ∈ example_queue.root.take p, example_queue.comparer x.pointer 104 < 0) ∧
      (∀ y ∈ (example_queue.root.drop p).head?, ¬ example_queue.comparer y.pointer 104 < 0) ∧
      (∀ k, k ≤ example_queue.root.length →
        (∀ x ∈ example_queue.root.take k, example_queue.comparer x.pointer 104 < 0) → k ≤ p) ∧
      priqueue_offer example_queue 1004 104 = some ((p : Int),
        { example_queue with
          size := example_queue.size + 1
          root := example_queue.root.take p ++ ⟨1004, 104⟩ :: example_queue.root.drop p }) ∧
      (example_queue.root.take p ++ ⟨1004, 104⟩ :: example_queue.root.drop p).eraseIdx p =
        example_queue.root ∧
      (example_queue.root = [] → p = 0) ∧
      ((∀ x ∈ example_queue.root, example_queue.comparer x.pointer 104 < 0) →
        p = example_queue.root.length) :=
  ⟨by decide, by decide, offer_scan_rule example_queue 1004 104 (by decide) (by decide)⟩

/-! ## C18 -/

/-- With a comparator whose zero results are symmetric, the body of `priqueue_remove` is a
filter: it keeps, in order, the cells that do not compare `0` against `ptr` and counts the
others. -/
theorem remove_body_eq_filter (comparer : Ptr → Ptr → Int) (ptr : Ptr)
    (hsym : ∀ a b, comparer a b = 0 ↔ comparer b a = 0) (root : List Node) (size : Int)
    (hw : size = (root.length : Int)) :
    remove_body comparer ptr size root =
      some (((root.filter (fun x => decide (comparer x.pointer ptr = 0))).length : Int),
        size - ((root.filter (fun x => decide (comparer x.pointer ptr = 0))).length : Int),
        root.filter (fun x => !decide (comparer x.pointer ptr = 0))) := by
  induction root generalizing size with
  | nil =>
    simp only [List.length_nil, Nat.cast_zero] at hw
    simp [remove_body, hw]
  | cons head next ih =>
    simp only [List.length_cons, Nat.cast_add, Nat.cast_one] at hw
    have h1 : ¬ size < 1 := by omega
    by_cases hh : comparer ptr head.pointer = 0
    · have hh' : comparer head.pointer ptr = 0 := (hsym _ _).mp hh
      simp only [remove_body, h1, if_false, hh, if_true, ih (size - 1) (by omega), hh',
        decide_True, List.filter_cons_of_pos, List.length_cons, Nat.cast_add, Nat.cast_one,
        Bool.not_true, Bool.false_eq_true, not_false_eq_true, List.filter_cons_of_neg,
        Option.some.injEq, Prod.mk.injEq, and_true, true_and]
      omega
    · have hh' : ¬ comparer head.pointer ptr = 0 := fun h => hh ((hsym _ _).mpr h)
      have hcount := List.length_eq_length_filter_add (l := next)
        (fun x => decide (comparer x.pointer ptr = 0))
      simp only [remove_body, h1, if_false, hh, remove_loop_eq, hh', decide_False,
        Bool.false_eq_true, not_false_eq_true, List.filter_cons_of_neg, Bool.not_false,
        List.filter_cons_of_pos, List.singleton_append, zero_add, Option.some.injEq,
        Prod.mk.injEq, and_true]
      constructor <;> omega

/-- C18. For every comparator with `comparer(a, b) == 0` if and only if `comparer(b, a) == 0`,
every queue (its `size` the length of its chain) with chain `xs` and every `ptr`,
`priqueue_remove` leaves exactly the cells `x` of `xs` with `comparer(x, ptr) != 0`, in their
original order, returns the number of cells `x` of `xs` with `comparer(x, ptr) == 0`, and
lowers `size` by that number. -/
theorem remove_is_filter (q : priqueue_t) (ptr : Ptr) (hw : WellFormed q)
    (hsym : ∀ a b, q.comparer a b = 0 ↔ q.comparer b a = 0) :
    priqueue_remove q ptr =
      some (((q.root.filter (fun x => decide (q.comparer x.pointer ptr = 0))).length : Int),
        { q with
          size := q.size -
            ((q.root.filter (fun x => decide (q.comparer x.pointer ptr = 0))).length : Int)
          root := q.root.filter (fun x => !decide (q.comparer x.pointer ptr = 0)) }) := by
  simp [priqueue_remove, remove_body_eq_filter q.comparer ptr hsym q.root q.size hw]

theorem numeric_zero_symm (a b : Ptr) : numeric_comparer a b = 0 ↔ numeric_comparer b a = 0 := by
  unfold numeric_comparer
  omega

/-- Witness of C18: the queue holding `3`, `3`, `5`, `8` and the target `102` (value `3`). -/
theorem remove_is_filter_witness :
    WellFormed example_queue_ties ∧
    (∀ a b, example_queue_ties.comparer a b = 0 ↔ example_queue_ties.comparer b a = 0) ∧
    priqueue_remove example_queue_ties 102 =
      some (((example_queue_ties.root.filter
          (fun x => decide (example_queue_ties.comparer x.pointer 102 = 0))).length : Int),
        { example_queue_ties with
          size := example_queue_ties.size - ((example_queue_ties.root.filter
            (fun x => decide (example_queue_ties.comparer x.pointer 102 = 0))).length : Int)
          root := example_queue_ties.root.filter
            (fun x => !decide (example_queue_ties.comparer x.pointer 102 = 0)) }) :=
  ⟨by decide, numeric_zero_symm,
    remove_is_filter example_queue_ties 102 (by decide) numeric_zero_symm⟩

/-! ## C19 -/

/-- Under a comparator whose "sorts no later" is transitive, every sublist of an ordered chain is
ordered. -/
theorem ordered_sublist {comparer : Ptr → Ptr → Int} (hc : TotalPreorder comparer)
    {root root' : List Node} (ho : Ordered comparer root) (hs : List.Sublist root' root) :
    Ordered comparer root' := by
  unfold Ordered at *
  haveI : IsTrans Node (fun A B : Node => comparer A.pointer B.pointer ≤ 0) :=
    ⟨fun a b c hab hbc => hc.le_trans a.pointer b.pointer c.pointer hab hbc⟩
  exact List.Chain'.sublist ho hs

/-- C19. For every comparator that is a total preorder and every queue (its `size` the length of
its chain) in which every adjacent pair `(A, B)` satisfies `comparer(A, B) <= 0`,
`priqueue_poll`, `priqueue_remove_at` with `0 <= index < size` and `priqueue_remove` with any
`ptr` are defined and leave a queue in which every adjacent pair still satisfies
`comparer(A, B) <= 0`. -/
theorem removals_keep_order (q : priqueue_t) (hc : TotalPreorder q.comparer) (hw : WellFormed q)
    (ho : Ordered q.comparer q.root) :
    (∃ r q', priqueue_poll q = some (r, q') ∧ Ordered q'.comparer q'.root) ∧
    (∀ index, 0 ≤ index → index < priqueue_size q →
      ∃ r q', priqueue_remove_at q index = some (r, q') ∧ Ordered q'.comparer q'.root) ∧
    (∀ ptr, ∃ r q', priqueue_remove q ptr = some (r, q') ∧ Ordered q'.comparer q'.root) := by
  have hsize : q.size = (q.root.length : Int) := hw
  refine ⟨?_, ?_, ?_⟩
  · by_cases h0 : q.size = 0
    · exact ⟨NULL, q, by simp [priqueue_poll, h0], ho⟩
    · cases hroot : q.root with
      | nil =>
        rw [hroot] at hsize
        simp only [List.length_nil, Nat.cast_zero] at hsize
        exact absurd hsize h0
      | cons temp next =>
        refine ⟨temp.pointer, { q with root := next, size := q.size - 1 }, ?_, ?_⟩
        · simp [priqueue_poll, h0, hroot]
        · apply ordered_sublist hc ho
          simp only [hroot]
          exact List.sublist_cons_self _ _
  · intro index h0 hlt
    simp only [priqueue_size] at hlt
    have hn : index.toNat < q.root.length := by omega
    have hrun := priqueue_remove_at_eq q hw index.toNat hn
    rw [Int.toNat_of_nonneg h0] at hrun
    exact ⟨_, _, hrun, ordered_sublist hc ho (List.eraseIdx_sublist _ _)⟩
  · intro ptr
    obtain ⟨r, root', hrun, hsub, _, _⟩ := remove_body_spec q.comparer ptr q.root q.size hw
    exact ⟨r, { q with size := q.size - r, root := root' }, by simp [priqueue_remove, hrun],
      ordered_sublist hc ho hsub⟩

theorem totalPreorder_numeric : TotalPreorder numeric_comparer := by
  constructor
  · exact threeWay_numeric.sign_swap
  · intro a b c
    unfold numeric_comparer
    omega

/-- Witness of C19: the queue holding `3`, `3`, `5`, `8` under the numeric comparator. -/
theorem removals_keep_order_witness :
    TotalPreorder example_queue_ties.comparer ∧ WellFormed example_queue_ties ∧
    Ordered example_queue_ties.comparer example_queue_ties.root ∧
    (∃ r q', priqueue_poll example_queue_ties = some (r, q') ∧ Ordered q'.comparer q'.root) ∧
    (∀ index, 0 ≤ index → index < priqueue_size example_queue_ties →
      ∃ r q', priqueue_remove_at example_queue_ties index = some (r, q') ∧
        Ordered q'.comparer q'.root) ∧
    (∀ ptr, ∃ r q', priqueue_remove example_queue_ties ptr = some (r, q') ∧
      Ordered q'.comparer q'.root) :=
  ⟨totalPreorder_numeric, by decide,
    by simp [Ordered, example_queue_ties, numeric_comparer, example_value],
    removals_keep_order example_queue_ties totalPreorder_numeric (by decide)
      (by simp [Ordered, example_queue_ties, numeric_comparer, example_value])⟩

/-! ## C20 -/

/-- C20. On every queue (its `size` the length of its chain), for every comparator and every
element `e`: when `priqueue_offer` (its allocation succeeding) returns `p`, the cell at position
`p` is the new cell holding `e`, and `priqueue_remove_at` at `p` right after it unlinks exactly
that cell (it returns the address of the new cell) and leaves the queue as it was before the
offer: same chain, same `size`, same comparator. -/
theorem offer_then_remove_at (q : priqueue_t) (node e : Ptr) (hw : WellFormed q)
    (hn : node ≠ NULL) :
    ∃ p q', priqueue_offer q node e = some (p, q') ∧
      q'.root.get? p.toNat = some ⟨node, e⟩ ∧
      priqueue_remove_at q' p = some (node, q) := by
  have hsplit := List.takeWhile_append_dropWhile
    (fun x => decide (q.comparer x.pointer e < 0)) q.root
  have hlen := congrArg List.length hsplit
  simp only [List.length_append] at hlen
  have hsize : q.size = (q.root.length : Int) := hw
  have hw' : WellFormed { q with
      size := q.size + 1
      root := q.root.takeWhile (fun x => decide (q.comparer x.pointer e < 0)) ++
        ⟨node, e⟩ :: q.root.dropWhile (fun x => decide (q.comparer x.pointer e < 0)) } := by
    simp only [WellFormed, List.length_append, List.length_cons]
    omega
  refine ⟨_, _, priqueue_offer_eq q node e hw hn, ?_, ?_⟩
  · simp [List.getElem?_append_right (le_refl _)]
  · rw [priqueue_remove_at_eq _ hw' _ (by simp)]
    simp only [List.get_eq_getElem, List.getElem_append_right (le_refl _), Nat.sub_self,
      List.getElem_cons_zero, eraseIdx_inserted, hsplit, add_sub_cancel_right]

/-- Witness of C20: the queue holding `3`, `5`, `8` and the new element `104`. -/
theorem offer_then_remove_at_witness :
    WellFormed example_queue ∧ (1004 : Ptr) ≠ NULL ∧
    ∃ p q', priqueue_offer example_queue 1004 104 = some (p, q') ∧
      q'.root.get? p.toNat = some ⟨1004, 104⟩ ∧
      priqueue_remove_at q' p = some (1004, example_queue) :=
  ⟨by decide, by decide, offer_then_remove_at example_queue 1004 104 (by decide) (by decide)⟩

end PriQueue
